import Mathlib

/-!
Verification development for the `seas.ica` decomposition / reconstruction
pipeline (file `seas/ica.py`).

The Python source is shallowly embedded over exact rationals: numpy arrays
become `List ℚ` (1-D) or `List (List ℚ)` (2-D, row-major unless stated
otherwise), fallible code returns `Except String`, and the external
collaborators (the `butterworth` filter and the wavelet denoiser, which the
spec treats as black-box primitives) are passed in as explicit function
parameters.  Machine floats are modelled as exact rationals; all claims
settled here are about the control logic and exact algebra of the pipeline,
not about rounding behaviour.
-/

namespace Seas

/-- Python slice `l[a:b]` for optional non-negative bounds: `None` start means
`0`, `None` stop means `len(l)`; out-of-range bounds clamp silently. -/
def pySlice (a b : Option ℕ) (l : List α) : List α :=
  let start := a.getD 0
  let stop := b.getD l.length
  (l.drop start).take (stop - start)

/-- The decomposition result dictionary (`components` in `ica.py`), restricted
to the keys the reconstruction engine reads.  `eig_vec` is row-major
(rows = spatial locations, columns = components); `eig_mix` is row-major
(rows = time samples, columns = components); `roimask` and `masks` are kept
flattened.  Optional fields model keys that may be absent from the dict. -/
structure Components where
  eig_vec : List (List ℚ)
  roimask : Option (List Bool)
  shape : ℕ × ℕ × ℕ
  mean : List ℚ
  n_components : ℕ
  eig_mix : List (List ℚ)
  artifact_components : Option (List ℚ)
  noise_components : Option (List ℚ)
  masks : Option (List (List Bool))
deriving Repr, DecidableEq

/-- The Python argument `artifact_components` of `rebuild` : either the
default `None`, the string sentinel `'none'`, or an explicit ndarray. -/
inductive ArtifactArg where
  | passNone
  | sentinel
  | explicit (v : List ℚ)
deriving Repr, DecidableEq

/-- `artifact_components[np.where(artifact_components > 1)] = 1`. -/
def clampToOne (v : List ℚ) : List ℚ :=
  v.map (fun a => if 1 < a then 1 else a)

/-- Resolution of the exclusion vector, `ica.py` lines 373-381.  Note the
source is an `if / elif / elif` chain: the noise-OR branch is reachable only
when an explicit override array was passed (neither `None` nor `'none'`). -/
def resolve_artifact_components (c : Components) (arg : ArtifactArg)
    (include_noise : Bool) : Except String (List ℚ) :=
  match arg with
  | .passNone =>
    match c.artifact_components with
    | some v => .ok v
    | none => .error "KeyError: artifact_components"
  | .sentinel => .ok (List.replicate c.n_components 0)
  | .explicit v =>
    if !include_noise then
      match c.noise_components with
      | some nv => .ok (clampToOne (List.zipWith (· + ·) v nv))
      | none => .ok v
    else .ok v

/-- External 1-D signal-filtering collaborators consumed by `filter_mean` and
`rebuild` (out of scope per the spec, injected as capabilities). -/
structure FilterPrimitives where
  butterworth : List ℚ → ℚ → Option ℚ → Option ℚ → List ℚ
  waveletFilter : List ℚ → ℚ → ℚ → List ℚ

/-- Arithmetic mean of a time course (`np.mean`). -/
def listMean (xs : List ℚ) : ℚ := xs.sum / xs.length

/-- `filter_mean`, `ica.py` lines 509-567.  The branch keys are exactly the
source string comparisons; the final `else` is the raised `Exception`.
For `constant`, `np.zeros_like(mean) + np.mean(mean)` is `length` copies of
the arithmetic mean. -/
def filter_mean (prims : FilterPrimitives) (mean : List ℚ)
    (filter_method : String) (fps low_cutoff high_cutoff : ℚ) :
    Except String (List ℚ) :=
  if filter_method = "butterworth" then
    .ok (prims.butterworth mean fps (some low_cutoff) none)
  else if filter_method = "butterworth_lowpass" then
    .ok (prims.butterworth mean fps none (some low_cutoff))
  else if filter_method = "butterworth_bandpass" then
    .ok (prims.butterworth mean fps (some low_cutoff) (some high_cutoff))
  else if filter_method = "wavelet" then
    .ok (prims.waveletFilter mean fps (1 / low_cutoff))
  else if filter_method = "constant" then
    .ok (List.replicate mean.length (listMean mean))
  else
    .error ("Filter method " ++ filter_method ++ " not supported!")

/-- Number of active (true) entries of a flattened mask
(`np.where(roimask.flat == 1)` size). -/
def maskActiveCount (m : List Bool) : ℕ := (m.filter id).length

/-- Rank of flat position `q` among the active mask positions: how many
active positions precede it (used to scatter rows back through the mask). -/
def maskRank (m : List Bool) (q : ℕ) : ℕ :=
  ((List.range q).filter (fun i => m.getD i false)).length

/-- The kept-component index set `np.where(artifact_components == 0)[0]`. -/
def reconstructIndices (artifact : List ℚ) : List ℕ :=
  (List.range artifact.length).filter (fun j => artifact.getD j 1 = 0)

/-- Optional lowpass filtering of every component time course,
`ica.py` lines 405-412: `timecourses = eig_mix.T`, each row filtered with
the external `butterworth` lowpass, transposed back. -/
def componentFilteredMix (prims : FilterPrimitives) (mix : List (List ℚ))
    (chigh fps : ℚ) : List (List ℚ) :=
  let timecourses := (List.range (mix.headD []).length).map
    (fun j => mix.map (fun row => row.getD j 0))
  let lpf := timecourses.map (fun tc => prims.butterworth tc fps none (some chigh))
  (List.range mix.length).map (fun i => lpf.map (fun tc => tc.getD i 0))

/-- The core product `ica.py` lines 431-432:
`np.dot(eig_vec[:, keep], eig_mix[t_start:t_stop, keep].T).T`, expressed
row-wise on the already-sliced `eig_mix` window: row `i`, entry `p` is
the sum over kept components `j` of `eig_vec[p, j] * eig_mix[ts+i, j]`. -/
def rebuildDot (eig_vec : List (List ℚ)) (keep : List ℕ)
    (mixWindow : List (List ℚ)) : List (List ℚ) :=
  mixWindow.map (fun mixRow =>
    (List.range eig_vec.length).map (fun p =>
      (keep.map (fun j =>
        (eig_vec.getD p []).getD j 0 * mixRow.getD j 0)).sum))

/-- `data_r += mean_slice[:, None]`: broadcast addition of one mean value
per time row (`ica.py` lines 457 and 462). -/
def addMeanRows (rows : List (List ℚ)) (meanWindow : List ℚ) :
    List (List ℚ) :=
  List.zipWith (fun (row : List ℚ) (m : ℚ) => row.map (· + m)) rows meanWindow

/-- The masked-mean variant (`ica.py` lines 440-452): the mean value is
added only at pixels covered by at least one kept component's mask. -/
def addMaskedMeanRows (rows : List (List ℚ)) (meanWindow : List ℚ)
    (combined : ℕ → Bool) : List (List ℚ) :=
  List.zipWith (fun (row : List ℚ) (m : ℚ) =>
    (row.enum).map (fun pv => pv.2 + if combined pv.1 then m else 0))
    rows meanWindow

/-- Scatter of the reconstructed rows back through the roimask
(`ica.py` lines 469-472): active flat positions receive the row entries in
mask order, inactive positions remain zero. -/
def scatterMask (m : List Bool) (xy : ℕ) (rows : List (List ℚ)) :
    List (List ℚ) :=
  rows.map (fun row =>
    (List.range xy).map (fun q =>
      if m.getD q false then row.getD (maskRank m q) 0 else 0))

/-- The body of `rebuild` after the empty-selection early return, `ica.py`
lines 392-474, with the reconstructed movie kept in flattened row-major
form: the returned value is a `(time, height*width)` matrix (the source's
final `reshape(t, x, y)` is the bijective chunking of each row into
`height` rows of `width`, cf. spec section 3).

Faithfulness notes, keyed to the source:
* line 368 `l = eig_vec[:, 0].size` raises `IndexError` when the array has
  rows but zero columns; it is otherwise dead.
* lines 373-381: exclusion-vector resolution, see
  `resolve_artifact_components`.
* lines 383-390: empty selection returns the sliced all-zero movie before
  any dimensional assertion runs.
* lines 395-402: dimension assertions for the unmasked / masked cases.
* lines 405-412: optional lowpass filtering of every component time course
  (`timecourses = eig_mix.T`, filtered rows, transposed back; modelled by
  filtering each row's contribution when slicing `eig_mix` row-wise).
* lines 414-423: window defaults (`t_start=0`, `t_stop=eig_mix.shape[0]`)
  and the reassignment `shape = (t_stop - t_start, x, y)` (the source's
  `is not` comparison on ints either skips an equal reassignment or
  reassigns an equal value, so the net effect is always this shape).
* lines 431-432: `data_r = eig_vec[:, keep] @ eig_mix[t_start:t_stop, keep].T`,
  transposed to (time, pixels).
* lines 434-462: mean re-addition (optionally filtered, optionally masked).
* lines 466-472: reshape, or scatter through the roimask (inactive
  locations stay zero).  `reshape` raises `ValueError` when the element
  count does not match `(t_stop - t_start) * x * y`; the scatter target is
  allocated with `t = t_stop - t_start` rows with the same constraint. -/
def rebuild_main (prims : FilterPrimitives) (c : Components) (keep : List ℕ)
    (t_start t_stop : Option ℕ) (apply_mean_filter : Bool)
    (mlow mhigh : ℚ) (apply_component_filter : Bool)
    (chigh : ℚ) (apply_masked_mean : Bool)
    (filter_method : String) (fps : ℚ) : Except String (List (List ℚ)) :=
  let x := c.shape.2.1
  let y := c.shape.2.2
  let rowsNeeded : ℕ :=
    match c.roimask with
    | none => x * y
    | some m => maskActiveCount m
  if c.eig_vec.length ≠ rowsNeeded then
    .error "AssertionError: eigenvector size is not compatible"
  else
    let eig_mix :=
      if apply_component_filter then
        componentFilteredMix prims c.eig_mix chigh fps
      else c.eig_mix
    let ts := t_start.getD 0
    let tstop := t_stop.getD eig_mix.length
    let data0 := rebuildDot c.eig_vec keep (pySlice (some ts) (some tstop) eig_mix)
    let meanRes : Except String (List ℚ) :=
      if apply_mean_filter then
        filter_mean prims c.mean filter_method fps mlow mhigh
      else .ok c.mean
    let data1res : Except String (List (List ℚ)) :=
      if apply_masked_mean then
        match c.masks with
        | none => .error "AssertionError: Masks have not been assigned to dictionary"
        | some masks =>
          match meanRes with
          | .error e => .error e
          | .ok mf =>
            .ok (addMaskedMeanRows data0 (pySlice (some ts) (some tstop) mf)
              (fun p => keep.any (fun j => (masks.getD p []).getD j false)))
      else
        match meanRes with
        | .error e => .error e
        | .ok mf => .ok (addMeanRows data0 (pySlice (some ts) (some tstop) mf))
    match data1res with
    | .error e => .error e
    | .ok data1 =>
      if data1.length ≠ tstop - ts then
        .error "ValueError: cannot reshape array"
      else
        match c.roimask with
        | none => .ok data1
        | some m => .ok (scatterMask m (x * y) data1)

/-- `rebuild`, `ica.py` lines 302-474: the pre-checks, the exclusion-vector
resolution, the empty-selection early return, and the main reconstruction
(`rebuild_main`). -/
def rebuild (prims : FilterPrimitives) (c : Components) (artifact : ArtifactArg)
    (t_start t_stop : Option ℕ) (apply_mean_filter : Bool)
    (mlow mhigh : ℚ) (apply_component_filter : Bool)
    (chigh : ℚ) (apply_masked_mean : Bool)
    (filter_method : String) (fps : ℚ)
    (include_noise : Bool) : Except String (List (List ℚ)) :=
  if c.eig_vec.length ≠ 0 ∧ (c.eig_vec.headD []).length = 0 then
    .error "IndexError: index 0 is out of bounds for axis 1 with size 0"
  else
    match resolve_artifact_components c artifact include_noise with
    | .error e => .error e
    | .ok artifact_components =>
      let keep := reconstructIndices artifact_components
      if keep.length = 0 then
        .ok (pySlice t_start t_stop
          (List.replicate c.shape.1 (List.replicate (c.shape.2.1 * c.shape.2.2) (0 : ℚ))))
      else
        rebuild_main prims c keep t_start t_stop apply_mean_filter mlow mhigh
          apply_component_filter chigh apply_masked_mean filter_method fps

/-- One growth update of the adaptive component search, `ica.py` lines
169-176: `n_components += n_components // 2`, then clamp to `shape[0]`. -/
def growStep (shape0 n : ℕ) : ℕ := min (n + n / 2) shape0

/-- Fuel-indexed adaptive search loop, `ica.py` lines 137-176.  The external
noise classifier `sort_noise` is injected as an oracle: `onoise k n` is the
number of components it labels noise at iteration `k` when `n` components
were decomposed (its output vector has length `n`, so `noise.size = n`).
The break conditions in source order: `noise.size == shape[0]`,
`p_signal < 75`, `n_components >= shape[0]`; the rational inequality
`(n - ns) * 100 < 75 * n` is the exact value of
`(1 - noise.sum()/noise.size) * 100 < 75`.  Returns `some (n, k)` with the
accepted count and the final `increased_cutoff` counter when the loop
breaks, `none` when `fuel` iterations did not reach a break. -/
def icaLoop (shape0 : ℕ) (onoise : ℕ → ℕ → ℕ) :
    ℕ → ℕ → ℕ → Option (ℕ × ℕ)
  | 0, _, _ => none
  | fuel + 1, n, k =>
    let ns := onoise k n
    if n = shape0 then some (n, k)
    else if (n - ns) * 100 < 75 * n then some (n, k)
    else if shape0 ≤ n then some (n, k)
    else icaLoop shape0 onoise fuel (growStep shape0 n) (k + 1)

/-- Population variance of a time course.  The source orders components by
`eig_mix.std(axis=0)`; ordering by variance is the same order, since the
square root is monotone on non-negatives, and keeps the sort keys
rational. -/
def colVariance (xs : List ℚ) : ℚ :=
  (xs.map (fun a => a ^ 2)).sum / xs.length - (xs.sum / xs.length) ^ 2

/-- Ascending argsort of a key list (`np.argsort`): the component indices
ordered by non-decreasing key. -/
def argsortAsc (keys : List ℚ) : List ℕ :=
  List.insertionSort (fun i j => keys.getD i 0 ≤ keys.getD j 0)
    (List.range keys.length)

/-- The descending component order `np.argsort(keys)[::-1]`. -/
def evSortDesc (keys : List ℚ) : List ℕ := (argsortAsc keys).reverse

/-- Post-hoc crop of excess noise components, `ica.py` lines 181-202, stated
on column-major factors (each entry of `eig_vecC` / `eig_mixC` is one
component's spatial / temporal vector) and the boolean noise labels.
`reduced_n_components = int((noise.size - noise.sum()) * 1.25)`: `int`
truncates toward zero, and on the 0/1 noise vector the value is exactly
`5 * signal_count / 4` in natural-number division.  When
`reduced < n_components`, components are reordered by descending
time-course variance and all three vectors are cut to `reduced` entries;
otherwise nothing changes.  Returns the factors, labels and the new
component count. -/
def crop_components (eig_vecC eig_mixC : List (List ℚ)) (noise : List Bool)
    (n : ℕ) : List (List ℚ) × List (List ℚ) × List Bool × ℕ :=
  let signal := noise.length - (noise.filter id).length
  let reduced := 5 * signal / 4
  if reduced < n then
    let keys := eig_mixC.map colVariance
    let perm := evSortDesc keys
    ((perm.map (fun j => eig_vecC.getD j [])).take reduced,
     (perm.map (fun j => eig_mixC.getD j [])).take reduced,
     (perm.map (fun j => noise.getD j false)).take reduced,
     reduced)
  else (eig_vecC, eig_mixC, noise, n)

/-- The rounding the spec asks of the crop step: `round(1.25 * signal)`.
Declared only to compare against the truncation the code performs;
`round` on `ℚ` rounds halves up. -/
def specRoundedReduced (signal : ℕ) : ℤ := round ((5 * signal : ℚ) / 4)

/-- Maximum absolute value of a component's spatial vector. -/
def maxAbs (xs : List ℚ) : ℚ := (xs.map (fun a => |a|)).foldr max 0

/-- `np.argmax(np.abs(xs))`: the first index attaining the maximum absolute
value. -/
def argmaxAbs (xs : List ℚ) : ℕ := xs.findIdx (fun a => maxAbs xs ≤ |a|)

/-- Sign-fix of one component, `ica.py` lines 235-242: locate the index of
maximum absolute spatial loading; if the loading there is negative, negate
the spatial and the temporal factor together and record flip flag `-1`,
otherwise leave the component alone with flag `1` (the `np.ones` initial
value). -/
def flip_sign_column (ev mix : List ℚ) : List ℚ × List ℚ × ℚ :=
  if ev.getD (argmaxAbs ev) 0 < 0 then
    (ev.map (fun a => -a), mix.map (fun a => -a), -1)
  else (ev, mix, 1)

/-- The sign-convention pass of the fixed-count path, `ica.py` lines
228-247, after the reorder: every component (column-major pairing of
spatial and temporal factor) is sign-fixed independently. -/
def normalize_component_signs (cols : List (List ℚ × List ℚ)) :
    List (List ℚ × List ℚ × ℚ) :=
  cols.map (fun pr => flip_sign_column pr.1 pr.2)

/-- Cumulative sums (`np.cumsum`): entry `i` is the sum of the first `i+1`
entries. -/
def cumsum (xs : List ℚ) : List ℚ :=
  (List.range xs.length).map (fun i => (xs.take (i + 1)).sum)

/-- Power sum over the sample positions `x = 0, ..., n-1`. -/
def powSum (n k : ℕ) : ℚ := ((List.range n).map (fun i => (i : ℚ) ^ k)).sum

/-- Moment sum of the data against the sample positions. -/
def momSum (ys : List ℚ) (k : ℕ) : ℚ :=
  (ys.enum.map (fun pv => ((pv.1 : ℚ) ^ k) * pv.2)).sum

/-- `np.polyfit(x, ys, deg=2)` on `x = 0, ..., n-1`: the least-squares
quadratic, computed exactly from the normal equations by Cramer's rule
(this equals numpy's least squares whenever the system is non-degenerate,
which holds for n ≥ 3 distinct sample points).  Returns `(c2, c1, c0)`. -/
def polyfit2 (ys : List ℚ) : ℚ × ℚ × ℚ :=
  let n := ys.length
  let s0 := powSum n 0
  let s1 := powSum n 1
  let s2 := powSum n 2
  let s3 := powSum n 3
  let s4 := powSum n 4
  let t0 := momSum ys 0
  let t1 := momSum ys 1
  let t2 := momSum ys 2
  let det := s4 * (s2 * s0 - s1 * s1) - s3 * (s3 * s0 - s1 * s2)
    + s2 * (s3 * s1 - s2 * s2)
  let d2 := t2 * (s2 * s0 - s1 * s1) - s3 * (t1 * s0 - t0 * s1)
    + s2 * (t1 * s1 - t0 * s2)
  let d1 := s4 * (t1 * s0 - t0 * s1) - t2 * (s3 * s0 - s1 * s2)
    + s2 * (s3 * t0 - t1 * s2)
  let d0 := s4 * (s2 * t0 - s1 * t1) - s3 * (s3 * t0 - s2 * t1)
    + t2 * (s3 * s1 - s2 * s2)
  (d2 / det, d1 / det, d0 / det)

/-- Evaluation of the fitted quadratic (`np.polyval`). -/
def polyval2 (p : ℚ × ℚ × ℚ) (x : ℚ) : ℚ := p.1 * x ^ 2 + p.2.1 * x + p.2.2

/-- `approximate_svd_linearity_transition`, `ica.py` lines 477-506, with the
aliasing of the caller's array made explicit.  `eig_val -= eig_val.min()`
mutates the caller's array in place, so the first component of the result
is that array's content after the call; the next line
`eig_val = eig_val / eig_val.sum()` REBINDS the local name to a fresh array
and does not write through to the caller.  The second component is the
returned transition index, `none` when `np.where(...)[0][0]` raises
`IndexError` because the fit lies at or above the cumulative curve
everywhere (the spec's `EstimationError`). -/
def approximate_svd_linearity_transition (ev : List ℚ) :
    List ℚ × Option ℕ :=
  let stored := ev.map (fun a => a - ev.min?.getD 0)
  let normalized := stored.map (fun a => a / stored.sum)
  let integrated := cumsum normalized
  let p := polyfit2 integrated
  let fit := (List.range integrated.length).map (fun i => polyval2 p (i : ℚ))
  (stored,
   (List.range integrated.length).findIdx?
     (fun i => fit.getD i 0 < integrated.getD i 0))

/-- `components['svd_eigval']` after the adaptive path has run the
transition estimator on the very array it stored (lines 128 and 132 of
`ica.py` pass the same ndarray object). -/
def svd_eigval_after_estimator (ev : List ℚ) : List ℚ :=
  (approximate_svd_linearity_transition ev).1

/-- The parameter names of `rebuild` (its Python signature, `ica.py` lines
302-314). -/
def rebuildParamNames : List String :=
  ["components", "artifact_components", "t_start", "t_stop",
   "apply_mean_filter", "mlow", "mhigh", "apply_component_filter", "chigh",
   "apply_masked_mean", "filter_method", "fps", "include_noise"]

/-- The keyword call `rebuild(components, artifact_components='none',
vector=True)` at `ica.py` lines 262-264: Python raises `TypeError` before
the callee body runs whenever a passed keyword is not among the callee's
parameter names, and `vector` is not a parameter of `rebuild`. -/
def residualRebuildCall : Except String Unit :=
  if ["artifact_components", "vector"].all
      (fun kw => rebuildParamNames.contains kw) then
    .ok ()
  else
    .error "TypeError: rebuild() got an unexpected keyword argument vector"

/-- The residual keys of the decomposition result dictionary. -/
structure ResidualFields where
  residuals_spatial : Option (List ℚ)
  residuals_temporal : Option (List ℚ)
deriving Repr, DecidableEq

/-- The `try`/`except` around residual accounting, `ica.py` lines 259-285:
the block either computes both residual summaries and stores them under
`residuals_spatial` / `residuals_temporal`, or, on any exception, the
exception is caught and logged and the dictionary is left untouched;
`project` returns its result either way (the step itself never fails). -/
def residual_step (tryResult : Except String (List ℚ × List ℚ))
    (c : ResidualFields) : ResidualFields :=
  match tryResult with
  | .ok rs =>
    { residuals_spatial := some rs.1, residuals_temporal := some rs.2 }
  | .error _ => c

/-- The composite outcome of the `try` block in `project`: its first
statement is the `rebuild(..., vector=True)` call; `rest` stands for
whatever the remainder of the block would have produced had the call
succeeded. -/
def projectResidualAttempt (rest : Except String (List ℚ × List ℚ)) :
    Except String (List ℚ × List ℚ) := do
  let _ ← residualRebuildCall
  rest

/-! ## Helper lemmas -/

/-- Sum of a constant shift over a list. -/
theorem sum_map_sub_const (l : List ℚ) (m : ℚ) :
    (l.map (fun a => a - m)).sum = l.sum - (l.length : ℚ) * m := by
  induction l with
  | nil => simp
  | cons a t ih => simp [ih]; ring

/-- `getD` through `map` at an in-range index. -/
theorem getD_map_lt {α β : Type} (f : α → β) (l : List α) (j : ℕ)
    (h : j < l.length) (d : β) (d' : α) :
    (l.map f).getD j d = f (l.getD j d') := by
  rw [List.getD_eq_getElem?_getD, List.getD_eq_getElem?_getD,
    List.getElem?_map, List.getElem?_eq_getElem h]
  rfl

/-- The ascending argsort is sorted by its keys. -/
theorem argsortAsc_sorted (keys : List ℚ) :
    (argsortAsc keys).Sorted (fun i j => keys.getD i 0 ≤ keys.getD j 0) := by
  haveI : IsTotal ℕ (fun i j => keys.getD i 0 ≤ keys.getD j 0) :=
    ⟨fun a b => le_total _ _⟩
  haveI : IsTrans ℕ (fun i j => keys.getD i 0 ≤ keys.getD j 0) :=
    ⟨fun a b c => le_trans⟩
  exact List.sorted_insertionSort _ _

/-- The descending order (`argsort` reversed) is sorted by non-increasing
keys. -/
theorem evSortDesc_sorted (keys : List ℚ) :
    (evSortDesc keys).Sorted (fun i j => keys.getD j 0 ≤ keys.getD i 0) := by
  exact List.pairwise_reverse.mpr (argsortAsc_sorted keys)

/-- Every entry of the descending order is an in-range component index. -/
theorem mem_evSortDesc {keys : List ℚ} {j : ℕ} (h : j ∈ evSortDesc keys) :
    j < keys.length := by
  rw [evSortDesc, List.mem_reverse] at h
  have := (List.perm_insertionSort
    (fun i j => keys.getD i 0 ≤ keys.getD j 0) (List.range keys.length)).mem_iff.mp h
  exact List.mem_range.mp this

/-- The descending order has one entry per component. -/
theorem evSortDesc_length (keys : List ℚ) :
    (evSortDesc keys).length = keys.length := by
  rw [evSortDesc, List.length_reverse, argsortAsc, List.length_insertionSort,
    List.length_range]

/-! ## Claims -/

/-- C8: the mean-signal filter dispatcher accepts exactly the policy names
`butterworth`, `butterworth_lowpass`, `butterworth_bandpass`, `wavelet` and
`constant`; every other name — in particular `butterworth_highpass`, the
default `filter_method` of `rebuild` and a name `rebuild`'s own docstring
lists as supported — raises.  For `constant`, the result is `length mean`
copies of the arithmetic mean of the time course.  This contradicts the
claim (and `rebuild`'s documentation): the high-pass policy under the name
`rebuild` uses by default is NOT accepted. -/
theorem c8_filter_mean_policies (prims : FilterPrimitives) (mean : List ℚ)
    (fps lo hi : ℚ) (name : String) :
    (filter_mean prims mean "butterworth_highpass" fps lo hi =
      Except.error "Filter method butterworth_highpass not supported!") ∧
    (filter_mean prims mean "constant" fps lo hi =
      Except.ok (List.replicate mean.length (listMean mean))) ∧
    (name ∉ ["butterworth", "butterworth_lowpass", "butterworth_bandpass",
        "wavelet", "constant"] →
      filter_mean prims mean name fps lo hi =
        Except.error ("Filter method " ++ name ++ " not supported!")) := by
  refine ⟨rfl, rfl, fun h => ?_⟩
  simp only [List.mem_cons, List.not_mem_nil, or_false, not_or] at h
  obtain ⟨h1, h2, h3, h4, h5⟩ := h
  simp [filter_mean, h1, h2, h3, h4, h5]

/-- C8 witness: evaluating the dispatcher at a concrete unsupported name. -/
theorem c8_filter_mean_policies_witness :
    ("nonsense" ∉ ["butterworth", "butterworth_lowpass",
        "butterworth_bandpass", "wavelet", "constant"]) ∧
    filter_mean ⟨fun s _ _ _ => s, fun s _ _ => s⟩ [1, 2] "nonsense" 1 1 1 =
      Except.error ("Filter method " ++ "nonsense" ++ " not supported!") :=
  ⟨by decide,
   (c8_filter_mean_policies ⟨fun s _ _ _ => s, fun s _ _ => s⟩ [1, 2] 1 1 1
     "nonsense").2.2 (by decide)⟩

/-- C9: residual accounting never aborts the decomposition.  Any failure of
the `try` block is caught and the result dictionary is returned unchanged,
lacking the `residuals_spatial` / `residuals_temporal` keys; moreover the
actual residual attempt in `project` always fails at its very first
statement (the `rebuild(..., vector=True)` call raises `TypeError`), so the
dictionary is left untouched whatever the rest of the block would do. -/
theorem c9_residual_failure_is_caught (c : ResidualFields)
    (rest : Except String (List ℚ × List ℚ)) (e : String) :
    residual_step (Except.error e) c = c ∧
    projectResidualAttempt rest =
      Except.error "TypeError: rebuild() got an unexpected keyword argument vector" ∧
    residual_step (projectResidualAttempt rest) c = c := by
  refine ⟨rfl, rfl, rfl⟩

/-- C10 counterexample: on the eigenvalue array `[3, 1]`, after the adaptive
path runs the estimator, the stored `svd_eigval` array is `[2, 0]` — the
spectrum shifted by its minimum but NOT normalized: it does not sum to one
and differs from the shifted-and-normalized spectrum `[1, 0]` the claim
says is stored. -/
theorem c10_counterexample :
    svd_eigval_after_estimator [3, 1] = [2, 0] ∧
    ((svd_eigval_after_estimator [3, 1]).sum ≠ 1) ∧
    svd_eigval_after_estimator [3, 1] ≠ [1, 0] := by
  refine ⟨?_, ?_, ?_⟩ <;>
    norm_num [svd_eigval_after_estimator, approximate_svd_linearity_transition,
      List.min?, min_def]

/-- C10 amended: the estimator mutates its input array in place only by the
minimum subtraction (`eig_val -= eig_val.min()`); the normalization
`eig_val = eig_val / eig_val.sum()` rebinds the local name and does not
write through.  Hence after the adaptive path the stored `svd_eigval` holds
the min-shifted spectrum, whose sum is the original sum minus
`length * minimum` (not 1 in general). -/
theorem c10_amended (ev : List ℚ) :
    svd_eigval_after_estimator ev
      = ev.map (fun a => a - ev.min?.getD 0) ∧
    (svd_eigval_after_estimator ev).sum
      = ev.sum - (ev.length : ℚ) * ev.min?.getD 0 := by
  refine ⟨rfl, ?_⟩
  show (ev.map (fun a => a - ev.min?.getD 0)).sum = _
  rw [sum_map_sub_const]

/-- A one-component decomposition result whose stored exclusion vector keeps
the single component while the noise classifier labels it noise. -/
def c3CexComponents : Components :=
  { eig_vec := [[1]], roimask := none, shape := (1, 1, 1), mean := [0],
    n_components := 1, eig_mix := [[1]], artifact_components := some [0],
    noise_components := some [1], masks := none }

/-- C3 counterexample: with no explicit override (`artifact_components=None`)
and noise exclusion requested (`include_noise=False`, `noise_components`
present and flagging the component), the resolved exclusion vector is the
stored `[0]` — the noise component is NOT excluded, although the claim says
the noise-label vector is OR'd in (which would give `[1]`).  The noise-OR
branch of the source is an `elif` arm reachable only for an explicit
override. -/
theorem c3_counterexample :
    resolve_artifact_components c3CexComponents .passNone false
      = Except.ok [0] ∧
    clampToOne (List.zipWith (· + ·) [0] [1]) = [1] ∧
    (Except.ok [0] : Except String (List ℚ)) ≠ Except.ok [1] := by
  refine ⟨rfl, by norm_num [clampToOne], by simp⟩

/-- C3 amended: the exclusion vector is the explicit override when one is
passed, else all-false for the `'none'` sentinel, else the stored
`artifact_components`; the noise-label vector is OR'd in (clamped to
boolean) ONLY in the explicit-override case, when `include_noise=False` and
`noise_components` is present — with the stored vector or the sentinel the
noise labels are never OR'd in. -/
theorem c3_amended (c : Components) (inc : Bool) (v nv : List ℚ) :
    (resolve_artifact_components c .sentinel inc
      = Except.ok (List.replicate c.n_components 0)) ∧
    (c.artifact_components = some v →
      resolve_artifact_components c .passNone inc = Except.ok v) ∧
    (c.noise_components = some nv →
      resolve_artifact_components c (.explicit v) false
        = Except.ok (clampToOne (List.zipWith (· + ·) v nv))) ∧
    (c.noise_components = none →
      resolve_artifact_components c (.explicit v) false = Except.ok v) ∧
    (resolve_artifact_components c (.explicit v) true = Except.ok v) := by
  refine ⟨rfl, fun h => ?_, fun h => ?_, fun h => ?_, rfl⟩ <;>
    simp [resolve_artifact_components, h]

/-- C3 witness for the amended statement, at the counterexample record. -/
theorem c3_amended_witness :
    (c3CexComponents.artifact_components = some [0] ∧
      c3CexComponents.noise_components = some [1]) ∧
    resolve_artifact_components c3CexComponents .passNone false
      = Except.ok [0] ∧
    resolve_artifact_components c3CexComponents (.explicit [0]) false
      = Except.ok (clampToOne (List.zipWith (· + ·) [0] [1])) :=
  ⟨⟨rfl, rfl⟩,
   (c3_amended c3CexComponents false [0] [1]).2.1 rfl,
   (c3_amended c3CexComponents false [0] [1]).2.2.1 rfl⟩

/-- Column-major spatial factors for the C5 counterexample: eight
components. -/
def c5EigVecCols : List (List ℚ) := [[1], [2], [3], [4], [5], [6], [7], [8]]

/-- Column-major temporal factors for the C5 counterexample. -/
def c5EigMixCols : List (List ℚ) :=
  [[1, 1], [2, 2], [3, 0], [4, 4], [0, 5], [6, 1], [7, 0], [8, 8]]

/-- Noise labels for the C5 counterexample: two of eight components are
noise, so `signal_count = 6`. -/
def c5Noise : List Bool :=
  [false, false, true, false, false, true, false, false]

/-- C5 counterexample: with `signal_count = 6` the code computes
`int(6 * 1.25) = int(7.5) = 7` and crops eight components to seven, while
the claim's `round(1.25 * 6) = round(7.5) = 8` would crop nothing (8 is not
below the current count 8).  Truncation and rounding disagree here. -/
theorem c5_counterexample :
    (c5Noise.length - (c5Noise.filter id).length = 6) ∧
    (crop_components c5EigVecCols c5EigMixCols c5Noise 8).2.2.2 = 7 ∧
    specRoundedReduced 6 = 8 := by
  refine ⟨by decide, ?_, ?_⟩
  · simp [crop_components, c5Noise]
  · norm_num [specRoundedReduced, round_eq]

/-- C5 amended: after the adaptive search, the crop count is
`reduced = int(1.25 * signal_count)` — TRUNCATION (natural-number
`5 * signal / 4`), not rounding; the crop is applied exactly when
`reduced < n_components`, in which case components are reordered by
descending time-course variance and the spatial factors, temporal factors
and noise labels are all cut to exactly `reduced` entries; otherwise
everything is unchanged.  The component count after the crop step never
exceeds its pre-crop value. -/
theorem c5_amended (eig_vecC eig_mixC : List (List ℚ)) (noise : List Bool)
    (n : ℕ) (hv : eig_vecC.length = n) (hm : eig_mixC.length = n)
    (hn : noise.length = n) :
    (crop_components eig_vecC eig_mixC noise n).2.2.2 ≤ n ∧
    (5 * (noise.length - (noise.filter id).length) / 4 < n →
      (crop_components eig_vecC eig_mixC noise n).2.2.2
          = 5 * (noise.length - (noise.filter id).length) / 4 ∧
      (crop_components eig_vecC eig_mixC noise n).1.length
          = 5 * (noise.length - (noise.filter id).length) / 4 ∧
      (crop_components eig_vecC eig_mixC noise n).2.1.length
          = 5 * (noise.length - (noise.filter id).length) / 4 ∧
      (crop_components eig_vecC eig_mixC noise n).2.2.1.length
          = 5 * (noise.length - (noise.filter id).length) / 4 ∧
      ((crop_components eig_vecC eig_mixC noise n).2.1.map
          colVariance).Sorted (fun a b => b ≤ a)) ∧
    (¬ 5 * (noise.length - (noise.filter id).length) / 4 < n →
      crop_components eig_vecC eig_mixC noise n
        = (eig_vecC, eig_mixC, noise, n)) := by
  have hkeyslen : (eig_mixC.map colVariance).length = n := by
    rw [List.length_map, hm]
  have hpermlen : (evSortDesc (eig_mixC.map colVariance)).length = n := by
    rw [evSortDesc_length, hkeyslen]
  have hcrop : crop_components eig_vecC eig_mixC noise n =
      if 5 * (noise.length - (noise.filter id).length) / 4 < n then
        ((((evSortDesc (eig_mixC.map colVariance)).map
            (fun j => eig_vecC.getD j [])).take
            (5 * (noise.length - (noise.filter id).length) / 4)),
         (((evSortDesc (eig_mixC.map colVariance)).map
            (fun j => eig_mixC.getD j [])).take
            (5 * (noise.length - (noise.filter id).length) / 4)),
         (((evSortDesc (eig_mixC.map colVariance)).map
            (fun j => noise.getD j false)).take
            (5 * (noise.length - (noise.filter id).length) / 4)),
         5 * (noise.length - (noise.filter id).length) / 4)
      else (eig_vecC, eig_mixC, noise, n) := rfl
  by_cases hred : 5 * (noise.length - (noise.filter id).length) / 4 < n
  · have hlen : ∀ (f : ℕ → List ℚ),
        (((evSortDesc (eig_mixC.map colVariance)).map f).take
          (5 * (noise.length - (noise.filter id).length) / 4)).length
        = 5 * (noise.length - (noise.filter id).length) / 4 := by
      intro f
      rw [List.length_take, List.length_map, hpermlen]
      exact min_eq_left (le_of_lt hred)
    have hlenB : ∀ (f : ℕ → Bool),
        (((evSortDesc (eig_mixC.map colVariance)).map f).take
          (5 * (noise.length - (noise.filter id).length) / 4)).length
        = 5 * (noise.length - (noise.filter id).length) / 4 := by
      intro f
      rw [List.length_take, List.length_map, hpermlen]
      exact min_eq_left (le_of_lt hred)
    have hsorted :
        ((((evSortDesc (eig_mixC.map colVariance)).map
            (fun j => eig_mixC.getD j [])).take
            (5 * (noise.length - (noise.filter id).length) / 4)).map
          colVariance).Sorted (fun a b => b ≤ a) := by
      rw [← List.map_take, List.map_map]
      have hsub : ((evSortDesc (eig_mixC.map colVariance)).take
            (5 * (noise.length - (noise.filter id).length) / 4)).Sorted
          (fun i j => (eig_mixC.map colVariance).getD j 0
            ≤ (eig_mixC.map colVariance).getD i 0) :=
        List.Pairwise.sublist (List.take_sublist _ _)
          (evSortDesc_sorted (eig_mixC.map colVariance))
      refine List.pairwise_map.mpr (hsub.imp_of_mem ?_)
      intro a b ha hb hab
      have ha' : a < eig_mixC.length := by
        have := mem_evSortDesc (List.mem_of_mem_take ha)
        rwa [hkeyslen, ← hm] at this
      have hb' : b < eig_mixC.length := by
        have := mem_evSortDesc (List.mem_of_mem_take hb)
        rwa [hkeyslen, ← hm] at this
      have hga := getD_map_lt colVariance eig_mixC a ha' 0 []
      have hgb := getD_map_lt colVariance eig_mixC b hb' 0 []
      show colVariance (eig_mixC.getD b []) ≤ colVariance (eig_mixC.getD a [])
      rw [← hga, ← hgb]
      exact hab
    rw [hcrop, if_pos hred]
    exact ⟨le_of_lt hred,
      fun _ => ⟨rfl, hlen _, hlen _, hlenB _, hsorted⟩,
      fun h => absurd hred h⟩
  · rw [hcrop, if_neg hred]
    exact ⟨le_refl n, fun h => absurd h hred, fun _ => rfl⟩

/-- C5 witness for the amended statement, at the counterexample factors. -/
theorem c5_amended_witness :
    (c5EigVecCols.length = 8 ∧ c5EigMixCols.length = 8 ∧
      c5Noise.length = 8) ∧
    (crop_components c5EigVecCols c5EigMixCols c5Noise 8).2.2.2 ≤ 8 :=
  ⟨⟨rfl, rfl, rfl⟩,
   (c5_amended c5EigVecCols c5EigMixCols c5Noise 8 rfl rfl rfl).1⟩

/-- If every entry of the exclusion vector is non-zero, no component is
selected for reconstruction. -/
theorem reconstructIndices_eq_nil {v : List ℚ} (h : ∀ q ∈ v, q ≠ 0) :
    reconstructIndices v = [] := by
  rw [reconstructIndices, List.filter_eq_nil_iff]
  intro j hj
  rw [List.mem_range] at hj
  simp only [decide_eq_true_eq]
  rw [List.getD_eq_getElem _ _ hj]
  exact h _ (List.getElem_mem hj)

/-- Adding an all-ones vector to a non-negative noise vector and clamping
leaves every entry non-zero. -/
theorem clampToOne_ones_add_ne_zero (m : ℕ) (nv : List ℚ)
    (hnv : ∀ p ∈ nv, 0 ≤ p) :
    ∀ q ∈ clampToOne (List.zipWith (· + ·) (List.replicate m 1) nv),
      q ≠ 0 := by
  induction nv generalizing m with
  | nil => simp [clampToOne]
  | cons p tl ih =>
    cases m with
    | zero => simp [clampToOne]
    | succ m' =>
      intro q hq
      rw [List.replicate_succ] at hq
      simp only [List.zipWith_cons_cons, clampToOne, List.map_cons,
        List.mem_cons] at hq
      rcases hq with h | h
      · have hp : (0 : ℚ) ≤ p := hnv p (by simp)
        subst h
        split
        · norm_num
        · intro hz
          nlinarith
      · exact ih m' (fun r hr => hnv r (List.mem_cons_of_mem _ hr)) q h

/-- Resolution of an explicit all-ones exclusion vector gives a vector with
no zero entry, whatever the noise options are. -/
theorem resolve_allOnes_ne_zero (c : Components) (m : ℕ) (inc : Bool)
    (hnv : ∀ nv, c.noise_components = some nv → ∀ p ∈ nv, 0 ≤ p) :
    ∃ v, resolve_artifact_components c (.explicit (List.replicate m 1)) inc
        = Except.ok v ∧ ∀ q ∈ v, q ≠ 0 := by
  cases inc with
  | true =>
    exact ⟨List.replicate m 1, rfl, fun q hq => by
      rw [List.eq_of_mem_replicate hq]; norm_num⟩
  | false =>
    cases hcn : c.noise_components with
    | none =>
      refine ⟨List.replicate m 1, ?_, fun q hq => by
        rw [List.eq_of_mem_replicate hq]; norm_num⟩
      simp [resolve_artifact_components, hcn]
    | some nv =>
      refine ⟨clampToOne (List.zipWith (· + ·) (List.replicate m 1) nv), ?_,
        clampToOne_ones_add_ne_zero m nv (hnv nv hcn)⟩
      simp [resolve_artifact_components, hcn]

/-- C2: rebuilding with an exclusion vector of all ones (no component kept)
never errors: it returns the all-zero movie, sliced to the requested time
window, with the stored `height * width` flattened spatial shape — both for
an in-range explicit window `[a, b)` and for the default full window.
(The hypotheses: the stored factors have at least one column when any row
exists — otherwise the dead `eig_vec[:, 0]` access on line 368 raises
before the empty-selection branch — and the classifier's noise labels are
the usual non-negative 0/1 flags.) -/
theorem c2_empty_selection (prims : FilterPrimitives) (c : Components)
    (m a b : ℕ) (amf : Bool) (mlow mhigh : ℚ) (acf : Bool) (chigh : ℚ)
    (amm : Bool) (fm : String) (fps : ℚ) (inc : Bool)
    (hl : c.eig_vec = [] ∨ (c.eig_vec.headD []).length ≠ 0)
    (hnv : ∀ nv, c.noise_components = some nv → ∀ p ∈ nv, 0 ≤ p)
    (hbt : b ≤ c.shape.1) :
    rebuild prims c (.explicit (List.replicate m 1)) (some a) (some b)
        amf mlow mhigh acf chigh amm fm fps inc
      = Except.ok (List.replicate (b - a)
          (List.replicate (c.shape.2.1 * c.shape.2.2) 0)) ∧
    rebuild prims c (.explicit (List.replicate m 1)) none none
        amf mlow mhigh acf chigh amm fm fps inc
      = Except.ok (List.replicate c.shape.1
          (List.replicate (c.shape.2.1 * c.shape.2.2) 0)) := by
  have hcond : ¬ (c.eig_vec.length ≠ 0 ∧ (c.eig_vec.headD []).length = 0) := by
    rcases hl with h | h
    · intro hc; exact hc.1 (by rw [h]; rfl)
    · intro hc; exact h hc.2
  obtain ⟨v, hres, hvz⟩ := resolve_allOnes_ne_zero c m inc hnv
  have hrec : reconstructIndices v = [] := reconstructIndices_eq_nil hvz
  constructor
  · rw [rebuild, if_neg hcond, hres]
    simp only [hrec, List.length_nil, if_pos rfl, pySlice, Option.getD_some,
      List.drop_replicate, List.take_replicate]
    have : (b - a) ⊓ (c.shape.1 - a) = b - a :=
      min_eq_left (Nat.sub_le_sub_right hbt a)
    rw [this, if_pos trivial]
  · rw [rebuild, if_neg hcond, hres]
    simp only [hrec, List.length_nil, if_pos rfl, pySlice, Option.getD_none,
      List.length_replicate, List.drop_zero, Nat.sub_zero,
      List.take_replicate, min_self]
    rw [if_pos trivial]

/-- C2 witness: a concrete two-component record rebuilt with the all-ones
exclusion vector over the window `[0, 1)` and over the full window. -/
theorem c2_empty_selection_witness :
    (([[1, 0], [0, 1]] : List (List ℚ)) = [] ∨
      (([[1, 0], [0, 1]] : List (List ℚ)).headD []).length ≠ 0) ∧
    rebuild ⟨fun s _ _ _ => s, fun s _ _ => s⟩
        ⟨[[1, 0], [0, 1]], none, (2, 1, 2), [5, 7], 2, [[1, 2], [3, 4]],
          none, none, none⟩
        (.explicit (List.replicate 2 1)) (some 0) (some 1)
        true (1/2) 1 false 1 false "butterworth_highpass" (15/2) true
      = Except.ok [[0, 0]] :=
  ⟨Or.inr (by decide),
   by
    have h := (c2_empty_selection ⟨fun s _ _ _ => s, fun s _ _ => s⟩
      ⟨[[1, 0], [0, 1]], none, (2, 1, 2), [5, 7], 2, [[1, 2], [3, 4]],
        none, none, none⟩
      2 0 1 true (1/2) 1 false 1 false "butterworth_highpass" (15/2) true
      (Or.inr (by decide)) (fun nv hnv => by cases hnv)
      (by decide)).1
    simpa using h⟩

/-- Every entry is bounded by the maximum absolute value. -/
theorem le_maxAbs {xs : List ℚ} {a : ℚ} (h : a ∈ xs) : |a| ≤ maxAbs xs := by
  induction xs with
  | nil => cases h
  | cons b tl ih =>
    rw [List.mem_cons] at h
    rw [maxAbs, List.map_cons, List.foldr_cons]
    rcases h with h | h
    · subst h; exact le_max_left _ _
    · exact le_trans (ih h) (le_max_right _ _)

/-- The maximum absolute value is attained on a non-empty list. -/
theorem maxAbs_mem {xs : List ℚ} (h : xs ≠ []) :
    ∃ a ∈ xs, |a| = maxAbs xs := by
  induction xs with
  | nil => exact absurd rfl h
  | cons b tl ih =>
    rw [maxAbs, List.map_cons, List.foldr_cons]
    cases tl with
    | nil =>
      refine ⟨b, List.mem_singleton_self b, ?_⟩
      simp [max_eq_left (abs_nonneg b)]
    | cons c tl' =>
      obtain ⟨a, ha, hmax⟩ := ih (by simp)
      rcases le_total (maxAbs (c :: tl')) |b| with hle | hle
      · refine ⟨b, List.mem_cons_self b _, ?_⟩
        rw [show (List.map (fun a => |a|) (c :: tl')).foldr max 0
            = maxAbs (c :: tl') from rfl]
        exact (max_eq_left hle).symm
      · refine ⟨a, List.mem_cons_of_mem b ha, ?_⟩
        rw [show (List.map (fun a => |a|) (c :: tl')).foldr max 0
            = maxAbs (c :: tl') from rfl]
        rw [max_eq_right hle]
        exact hmax

/-- On a non-empty list the argmax index is in range. -/
theorem argmaxAbs_lt_length {xs : List ℚ} (h : xs ≠ []) :
    argmaxAbs xs < xs.length := by
  obtain ⟨a, ha, hmax⟩ := maxAbs_mem h
  exact List.findIdx_lt_length_of_exists
    ⟨a, ha, by simp [hmax.ge]⟩

/-- The entry at the argmax index attains the maximum absolute value. -/
theorem abs_getD_argmaxAbs {xs : List ℚ} (h : xs ≠ []) :
    |xs.getD (argmaxAbs xs) 0| = maxAbs xs := by
  have hlt := argmaxAbs_lt_length h
  have hp : (fun a => decide (maxAbs xs ≤ |a|)) xs[argmaxAbs xs] = true :=
    @List.findIdx_getElem _ _ _ hlt
  rw [decide_eq_true_eq] at hp
  have hle : |xs[argmaxAbs xs]| ≤ maxAbs xs :=
    le_maxAbs (List.getElem_mem hlt)
  rw [List.getD_eq_getElem _ _ hlt]
  exact le_antisymm hle hp

/-- `findIdx` through a `map`. -/
theorem findIdx_map_comp {α β : Type} (p : β → Bool) (f : α → β)
    (xs : List α) :
    (xs.map f).findIdx p = xs.findIdx (fun a => p (f a)) := by
  induction xs with
  | nil => rfl
  | cons a tl ih => simp [List.findIdx_cons, ih]

/-- Negating a list does not change the absolute values, hence not the
argmax index either. -/
theorem argmaxAbs_map_neg (xs : List ℚ) :
    argmaxAbs (xs.map (fun a => -a)) = argmaxAbs xs := by
  have habs : (xs.map (fun a => -a)).map (fun a => |a|)
      = xs.map (fun a => |a|) := by
    rw [List.map_map]
    exact List.map_congr_left (fun a _ => abs_neg a)
  have hmax : maxAbs (xs.map (fun a => -a)) = maxAbs xs := by
    rw [maxAbs, habs, maxAbs]
  rw [argmaxAbs, argmaxAbs, hmax, findIdx_map_comp]
  congr 1
  funext a
  rw [abs_neg]

/-- Per-component behaviour of the sign fix. -/
theorem flip_sign_column_spec (ev mix : List ℚ) (hne : ev ≠ []) :
    0 ≤ (flip_sign_column ev mix).1.getD
        (argmaxAbs (flip_sign_column ev mix).1) 0 ∧
    ((flip_sign_column ev mix).2.2 = 1 ∨
      (flip_sign_column ev mix).2.2 = -1) ∧
    ((flip_sign_column ev mix).2.2 = -1 →
      ev.getD (argmaxAbs ev) 0 < 0 ∧
      (flip_sign_column ev mix).1 = ev.map (fun a => -a) ∧
      (flip_sign_column ev mix).2.1 = mix.map (fun a => -a)) ∧
    ((flip_sign_column ev mix).2.2 = 1 →
      ¬ ev.getD (argmaxAbs ev) 0 < 0 ∧
      flip_sign_column ev mix = (ev, mix, 1)) := by
  by_cases hneg : ev.getD (argmaxAbs ev) 0 < 0
  · rw [flip_sign_column, if_pos hneg]
    refine ⟨?_, Or.inr rfl, fun _ => ⟨hneg, rfl, rfl⟩,
      fun h => absurd h (by norm_num)⟩
    rw [argmaxAbs_map_neg,
      getD_map_lt (fun a => -a) ev _ (argmaxAbs_lt_length hne) 0 0]
    linarith
  · rw [flip_sign_column, if_neg hneg]
    exact ⟨not_lt.mp hneg, Or.inl rfl, fun h => absurd h (by norm_num),
      fun _ => ⟨hneg, rfl⟩⟩

/-- C7: after the fixed-count path's sign normalization, for every component
the spatial loading at its location of maximum absolute value is
non-negative; a component is negated (flip flag `-1`) exactly when the
loading at that location was negative, in which case the spatial AND the
temporal factor are negated together; a non-flipped component keeps flag
`1` and is returned unchanged. -/
theorem c7_sign_convention (cols : List (List ℚ × List ℚ)) (i : ℕ)
    (hi : i < cols.length) (hne : (cols.getD i ([], [])).1 ≠ []) :
    0 ≤ ((normalize_component_signs cols).getD i ([], [], 1)).1.getD
        (argmaxAbs ((normalize_component_signs cols).getD i ([], [], 1)).1) 0 ∧
    (((normalize_component_signs cols).getD i ([], [], 1)).2.2 = 1 ∨
      ((normalize_component_signs cols).getD i ([], [], 1)).2.2 = -1) ∧
    (((normalize_component_signs cols).getD i ([], [], 1)).2.2 = -1 →
      (cols.getD i ([], [])).1.getD
        (argmaxAbs (cols.getD i ([], [])).1) 0 < 0 ∧
      ((normalize_component_signs cols).getD i ([], [], 1)).1
        = (cols.getD i ([], [])).1.map (fun a => -a) ∧
      ((normalize_component_signs cols).getD i ([], [], 1)).2.1
        = (cols.getD i ([], [])).2.map (fun a => -a)) ∧
    (((normalize_component_signs cols).getD i ([], [], 1)).2.2 = 1 →
      ¬ (cols.getD i ([], [])).1.getD
          (argmaxAbs (cols.getD i ([], [])).1) 0 < 0 ∧
      (normalize_component_signs cols).getD i ([], [], 1)
        = ((cols.getD i ([], [])).1, (cols.getD i ([], [])).2, 1)) := by
  have hrw : (normalize_component_signs cols).getD i ([], [], 1)
      = flip_sign_column (cols.getD i ([], [])).1 (cols.getD i ([], [])).2 := by
    rw [normalize_component_signs,
      getD_map_lt (fun pr => flip_sign_column pr.1 pr.2) cols i hi
        ([], [], 1) ([], [])]
  rw [hrw]
  exact flip_sign_column_spec (cols.getD i ([], [])).1
    (cols.getD i ([], [])).2 hne

/-- C7 witness: a concrete pair of components, the first of which must be
flipped (its dominant spatial loading is negative). -/
theorem c7_sign_convention_witness :
    (0 < ([([-3, 1], [2, 5]), ([2, 1], [4, 1])] :
        List (List ℚ × List ℚ)).length ∧
      (([([-3, 1], [2, 5]), ([2, 1], [4, 1])] :
        List (List ℚ × List ℚ)).getD 0 ([], [])).1 ≠ []) ∧
    0 ≤ ((normalize_component_signs
          [([-3, 1], [2, 5]), ([2, 1], [4, 1])]).getD 0 ([], [], 1)).1.getD
        (argmaxAbs ((normalize_component_signs
          [([-3, 1], [2, 5]), ([2, 1], [4, 1])]).getD 0 ([], [], 1)).1) 0 :=
  ⟨⟨by decide, by decide⟩,
   (c7_sign_convention [([-3, 1], [2, 5]), ([2, 1], [4, 1])] 0
     (by decide) (by decide)).1⟩

/-- The empirical cumulative-energy curve the estimator builds from an
eigenvalue array: shift by the minimum, normalize to unit sum, cumulative
sum (`ica.py` lines 496-498). -/
def integratedCurve (ev : List ℚ) : List ℚ :=
  cumsum ((ev.map (fun a => a - ev.min?.getD 0)).map
    (fun a => a / (ev.map (fun a => a - ev.min?.getD 0)).sum))

/-- The degree-2 polynomial fit of the cumulative curve, evaluated at every
component index (`ica.py` lines 501-502). -/
def fitCurve (ev : List ℚ) : List ℚ :=
  (List.range (integratedCurve ev).length).map
    (fun i => polyval2 (polyfit2 (integratedCurve ev)) (i : ℚ))

/-- The estimator's search is `findIdx?` of the strict-crossing predicate
over all component indices. -/
theorem transition_eq_findIdx (ev : List ℚ) :
    (approximate_svd_linearity_transition ev).2
      = (List.range (integratedCurve ev).length).findIdx?
          (fun i => decide
            ((fitCurve ev).getD i 0 < (integratedCurve ev).getD i 0)) := rfl

/-- C6: the linearity-transition estimator returns `some i` exactly when `i`
is the smallest component index at which the empirical cumulative curve
(shifted by the minimum, normalized to unit sum, cumulatively summed)
strictly exceeds the degree-2 polynomial fit evaluated there; it returns
`none` (the `IndexError` from `np.where(...)[0][0]`, the spec's
`EstimationError`) exactly when the fit lies at or above the empirical
curve at every index. -/
theorem c6_linearity_transition (ev : List ℚ) (i : ℕ) :
    ((approximate_svd_linearity_transition ev).2 = some i ↔
      i < (integratedCurve ev).length ∧
      (fitCurve ev).getD i 0 < (integratedCurve ev).getD i 0 ∧
      ∀ j < i, ¬ ((fitCurve ev).getD j 0 < (integratedCurve ev).getD j 0)) ∧
    ((approximate_svd_linearity_transition ev).2 = none ↔
      ∀ j < (integratedCurve ev).length,
        ¬ ((fitCurve ev).getD j 0 < (integratedCurve ev).getD j 0)) := by
  rw [transition_eq_findIdx]
  constructor
  · rw [List.findIdx?_eq_some_iff_getElem]
    constructor
    · rintro ⟨h, hp, hmin⟩
      rw [List.length_range] at h
      rw [List.getElem_range] at hp
      rw [decide_eq_true_eq] at hp
      refine ⟨h, hp, fun j hj => ?_⟩
      have hj' : j < (List.range (integratedCurve ev).length).length := by
        rw [List.length_range]; exact lt_trans hj h
      have := hmin j hj
      rw [List.getElem_range, decide_eq_true_eq] at this
      exact this
    · rintro ⟨h, hp, hmin⟩
      have h' : i < (List.range (integratedCurve ev).length).length := by
        rw [List.length_range]; exact h
      refine ⟨h', ?_, fun j hj => ?_⟩
      · rw [List.getElem_range, decide_eq_true_eq]; exact hp
      · rw [List.getElem_range, decide_eq_true_eq]
        exact hmin j hj
  · rw [List.findIdx?_eq_none_iff]
    constructor
    · intro h j hj
      have := h j (List.mem_range.mpr hj)
      rw [decide_eq_false_iff_not] at this
      exact this
    · intro h x hx
      rw [List.mem_range] at hx
      rw [decide_eq_false_iff_not]
      exact h x hx

/-- C6 witness: on the decaying spectrum `[10, 6, 3, 1]` the first strict
crossing of the cumulative curve over its quadratic fit is at index 1, and
the estimator indeed returns `some 1` — obtained by applying the claim
theorem in the `mpr` direction after checking the three concrete
crossing facts by evaluation. -/
theorem c6_linearity_transition_witness :
    (approximate_svd_linearity_transition [10, 6, 3, 1]).2 = some 1 :=
  (c6_linearity_transition [10, 6, 3, 1] 1).1.mpr
    ⟨by norm_num [integratedCurve, cumsum],
     by
      norm_num [fitCurve, integratedCurve, cumsum, polyfit2, polyval2,
        powSum, momSum, List.min?, min_def, List.range_succ, List.enum,
        List.enumFrom],
     by
      intro j hj
      interval_cases j
      norm_num [fitCurve, integratedCurve, cumsum, polyfit2, polyval2,
        powSum, momSum, List.min?, min_def, List.range_succ, List.enum,
        List.enumFrom]⟩

/-- A classifier oracle that labels every component signal (0 noise),
i.e. the decomposition always looks 100 percent signal. -/
def allSignalOracle : ℕ → ℕ → ℕ := fun _ _ => 0

/-- From a component count of 1 with two time samples and an all-signal
classifier, the loop never breaks: `1 + 1 // 2 = 1`, so the growth update
is a fixed point below the ceiling. -/
theorem icaLoop_one_stuck (fuel k : ℕ) :
    icaLoop 2 allSignalOracle fuel 1 k = none := by
  induction fuel generalizing k with
  | zero => rfl
  | succ f ih =>
    rw [icaLoop]
    norm_num [allSignalOracle, growStep]
    exact ih (k + 1)

/-- C4 counterexample: with time dimension `shape[0] = 2`, initial component
count 1 (positive), and a classifier that always reports 100 percent
signal, the adaptive search loop never terminates — no amount of fuel
reaches a break, because the growth update `n += n // 2` leaves `n = 1`
unchanged. -/
theorem c4_counterexample :
    ¬ ∃ fuel r, icaLoop 2 allSignalOracle fuel 1 0 = some r := by
  rintro ⟨fuel, r, h⟩
  rw [icaLoop_one_stuck] at h
  cases h

/-- Any break condition yields `some` once the count has reached the
ceiling; below the ceiling the count strictly grows (for counts at least
2), so `d + 1` fuel suffices when `shape0 ≤ n + d`. -/
theorem icaLoop_terminates (shape0 : ℕ) (onoise : ℕ → ℕ → ℕ) :
    ∀ d n k, 2 ≤ n → shape0 ≤ n + d →
      ∃ r, icaLoop shape0 onoise (d + 1) n k = some r := by
  intro d
  induction d with
  | zero =>
    intro n k h2 hle
    rw [icaLoop]
    by_cases h1 : n = shape0
    · exact ⟨(n, k), by simp [h1]⟩
    · by_cases hp : (n - onoise k n) * 100 < 75 * n
      · exact ⟨(n, k), by simp [h1, hp]⟩
      · have hs : shape0 ≤ n := by omega
        exact ⟨(n, k), by simp [h1, hp, hs]⟩
  | succ d ih =>
    intro n k h2 hle
    rw [icaLoop]
    by_cases h1 : n = shape0
    · exact ⟨(n, k), by simp [h1]⟩
    · by_cases hp : (n - onoise k n) * 100 < 75 * n
      · exact ⟨(n, k), by simp [h1, hp]⟩
      · by_cases hs : shape0 ≤ n
        · exact ⟨(n, k), by simp [h1, hp, hs]⟩
        · have hlt : n < shape0 := lt_of_not_le hs
          have hgrow : n + 1 ≤ growStep shape0 n := by
            rw [growStep]
            have : 1 ≤ n / 2 := by omega
            exact le_min (by omega) (by omega)
          obtain ⟨r, hr⟩ := ih (growStep shape0 n) (k + 1)
            (by omega) (by omega)
          refine ⟨r, ?_⟩
          simp only [h1, hp, hs, if_false]
          exact hr

/-- C4 amended: across iterations of the adaptive search, every growth
update is non-decreasing and clamped to the time dimension `shape[0]`; and
the loop terminates in a bounded number of iterations for every initial
component count of at least 2 (for initial count 1 and `shape[0] ≥ 2` the
loop can run forever, see the counterexample). -/
theorem c4_amended (shape0 : ℕ) (onoise : ℕ → ℕ → ℕ) (n0 k0 : ℕ)
    (h2 : 2 ≤ n0) :
    (∀ n, n < shape0 → n ≤ growStep shape0 n ∧ growStep shape0 n ≤ shape0) ∧
    ∃ fuel r, icaLoop shape0 onoise fuel n0 k0 = some r := by
  constructor
  · intro n hn
    exact ⟨le_min (Nat.le_add_right n (n / 2)) (le_of_lt hn),
      min_le_right _ _⟩
  · obtain ⟨r, hr⟩ := icaLoop_terminates shape0 onoise (shape0 - n0) n0 k0
      h2 (by omega)
    exact ⟨shape0 - n0 + 1, r, hr⟩

/-- C4 witness: the amended statement at `shape[0] = 5`, initial count 3,
all-signal classifier. -/
theorem c4_amended_witness :
    (2 ≤ 3) ∧
    ((∀ n, n < 5 → n ≤ growStep 5 n ∧ growStep 5 n ≤ 5) ∧
      ∃ fuel r, icaLoop 5 allSignalOracle fuel 3 0 = some r) :=
  ⟨by decide, c4_amended 5 allSignalOracle 3 0 (by decide)⟩

/-- The all-false exclusion vector keeps every component index. -/
theorem reconstructIndices_replicate_zero (k : ℕ) :
    reconstructIndices (List.replicate k (0 : ℚ)) = List.range k := by
  rw [reconstructIndices, List.length_replicate]
  apply List.filter_eq_self.mpr
  intro j hj
  rw [List.mem_range] at hj
  rw [decide_eq_true_eq, List.getD_eq_getElem _ _ (by simpa),
    List.getElem_replicate]

/-- A slice from 0 whose stop bound covers the list is the list itself. -/
theorem pySlice_zero_ge {α : Type} (n : ℕ) (l : List α) (h : l.length ≤ n) :
    pySlice (some 0) (some n) l = l := by
  rw [pySlice]
  simp only [Option.getD_some, List.drop_zero, Nat.sub_zero]
  exact List.take_of_length_le h

/-- Reading every in-range index back out of a list reproduces it. -/
theorem map_getD_range {α : Type} (l : List α) (d : α) :
    (List.range l.length).map (fun i => l.getD i d) = l := by
  apply List.ext_getElem
  · simp
  · intro i h1 h2
    rw [List.getElem_map, List.getElem_range, List.getD_eq_getElem _ _ h2]

/-- Sum of a pointwise function plus a constant over a list. -/
theorem sum_map_add_const {α : Type} (l : List α) (f : α → ℚ) (m : ℚ) :
    (l.map (fun a => f a + m)).sum = (l.map f).sum + l.length * m := by
  induction l with
  | nil => simp
  | cons a tl ih => simp [ih]; ring

/-- One entry of the Residual Accountant's quantity, `ica.py` lines
261-269: with `R` the (time, pixels) rebuild output and `V` the (pixels,
time) mean-removed original, both matrices are centered by their per-time
pixel mean (`.mean(axis=0)` after the transpose) and the absolute
difference is taken at pixel `p`, time `i`. -/
def residualEntry (R V : List (List ℚ)) (i p : ℕ) : ℚ :=
  |((R.getD i []).getD p 0 - listMean (R.getD i []))
    - ((V.getD p []).getD i 0 - listMean (V.map (fun row => row.getD i 0)))|

/-- C1: round-trip identity.  For a decomposition result whose factors
exactly reconstruct the mean-removed matrix `V` (the exact-arithmetic
counterpart of "no near-duplicate rows", under which the ICA factorization
loses nothing), rebuilding with the `'none'` sentinel (include everything)
and no filters succeeds, and the output is `V` with the per-time mean added
back: subtracting the re-added mean recovers `V` exactly, and every entry
of the Residual Accountant's absolute residual is zero. -/
theorem c1_round_trip (prims : FilterPrimitives) (c : Components)
    (V : List (List ℚ)) (mlow mhigh chigh fps : ℚ) (fm : String)
    (t x y k : ℕ)
    (hshape : c.shape = (t, x, y))
    (hroi : c.roimask = none)
    (hk : c.n_components = k)
    (hcolsPos : 0 < k)
    (hrows : ∀ row ∈ c.eig_vec, row.length = k)
    (hev : c.eig_vec.length = x * y)
    (hpix : 0 < x * y)
    (hmix : c.eig_mix.length = t)
    (hmean : c.mean.length = t)
    (hV : V.length = x * y)
    (hexact : ∀ p < x * y, ∀ i < t,
      ((List.range k).map (fun j =>
        (c.eig_vec.getD p []).getD j 0 * (c.eig_mix.getD i []).getD j 0)).sum
        = (V.getD p []).getD i 0) :
    ∃ R, rebuild prims c .sentinel none none false mlow mhigh false chigh
        false fm fps true = Except.ok R ∧
      R.length = t ∧ (∀ i < t, (R.getD i []).length = x * y) ∧
      (∀ i < t, ∀ p < x * y,
        (R.getD i []).getD p 0 - c.mean.getD i 0 = (V.getD p []).getD i 0) ∧
      (∀ i < t, ∀ p < x * y, residualEntry R V i p = 0) := by
  have hlen0 : c.eig_vec.length ≠ 0 := by rw [hev]; omega
  have hhead : (c.eig_vec.headD []).length = k := by
    cases hcv : c.eig_vec with
    | nil =>
      exfalso
      rw [hcv, List.length_nil] at hev
      omega
    | cons r tl =>
      have := hrows r (by rw [hcv]; exact List.mem_cons_self r tl)
      simpa using this
  have hcond : ¬ (c.eig_vec.length ≠ 0 ∧ (c.eig_vec.headD []).length = 0) := by
    intro hc
    rw [hhead] at hc
    omega
  have hkeep : reconstructIndices (List.replicate c.n_components (0:ℚ))
      = List.range k := by
    rw [hk, reconstructIndices_replicate_zero]
  have hD : rebuild prims c .sentinel none none false mlow mhigh false chigh
      false fm fps true
      = Except.ok (addMeanRows
          (rebuildDot c.eig_vec (List.range k) c.eig_mix) c.mean) := by
    rw [rebuild, if_neg hcond]
    simp only [resolve_artifact_components]
    rw [hkeep]
    rw [if_neg (by rw [List.length_range]; omega)]
    rw [rebuild_main, hroi]
    simp only [hshape]
    rw [if_neg (by rw [hev]; exact fun h => h rfl)]
    simp only [Bool.false_eq_true, if_false, Option.getD_none,
      Option.getD_some]
    rw [pySlice_zero_ge c.eig_mix.length c.eig_mix (le_refl _)]
    rw [pySlice_zero_ge c.eig_mix.length c.mean (by omega)]
    rw [if_neg ?hlen]
    case hlen =>
      rw [addMeanRows, List.length_zipWith, rebuildDot, List.length_map]
      omega
  have hDlen : (addMeanRows (rebuildDot c.eig_vec (List.range k) c.eig_mix)
      c.mean).length = t := by
    rw [addMeanRows, List.length_zipWith, rebuildDot, List.length_map, hmix,
      hmean, min_self]
  have hrow : ∀ i, i < t →
      (addMeanRows (rebuildDot c.eig_vec (List.range k) c.eig_mix)
          c.mean).getD i []
        = ((List.range c.eig_vec.length).map (fun p =>
            ((List.range k).map (fun j =>
              (c.eig_vec.getD p []).getD j 0
                * (c.eig_mix.getD i []).getD j 0)).sum)).map
            (fun v => v + c.mean.getD i 0) := by
    intro i hi
    have hiD : i < (addMeanRows (rebuildDot c.eig_vec (List.range k)
        c.eig_mix) c.mean).length := by omega
    have him : i < c.eig_mix.length := by omega
    have hime : i < c.mean.length := by omega
    rw [List.getD_eq_getElem _ _ hiD]
    simp only [addMeanRows]
    rw [List.getElem_zipWith]
    simp only [rebuildDot]
    rw [List.getElem_map]
    have em : c.eig_mix.getD i [] = c.eig_mix[i] :=
      List.getD_eq_getElem _ _ him
    have emean : c.mean.getD i 0 = c.mean[i] :=
      List.getD_eq_getElem _ _ hime
    rw [em, emean]
  have hrowlen : ∀ i, i < t →
      ((addMeanRows (rebuildDot c.eig_vec (List.range k) c.eig_mix)
          c.mean).getD i []).length = x * y := by
    intro i hi
    rw [hrow i hi, List.length_map, List.length_map, List.length_range, hev]
  have hentry : ∀ i, i < t → ∀ p, p < x * y →
      ((addMeanRows (rebuildDot c.eig_vec (List.range k) c.eig_mix)
          c.mean).getD i []).getD p 0
        = (V.getD p []).getD i 0 + c.mean.getD i 0 := by
    intro i hi p hp
    rw [hrow i hi]
    have hp' : p < ((List.range c.eig_vec.length).map (fun p =>
        ((List.range k).map (fun j =>
          (c.eig_vec.getD p []).getD j 0
            * (c.eig_mix.getD i []).getD j 0)).sum)).length := by
      rw [List.length_map, List.length_range]
      omega
    rw [List.getD_eq_getElem _ _ (by rw [List.length_map]; exact hp')]
    rw [List.getElem_map, List.getElem_map, List.getElem_range]
    rw [hexact p hp i hi]
  have hVr : ∀ i, (List.range V.length).map
        (fun p => (V.getD p []).getD i 0)
      = V.map (fun row => row.getD i 0) := by
    intro i
    conv_rhs => rw [← map_getD_range V ([] : List ℚ)]
    rw [List.map_map]
    rfl
  have hsumrow : ∀ i, i < t →
      ((addMeanRows (rebuildDot c.eig_vec (List.range k) c.eig_mix)
          c.mean).getD i []).sum
        = (V.map (fun row => row.getD i 0)).sum
          + (x * y) * c.mean.getD i 0 := by
    intro i hi
    rw [hrow i hi, List.map_map]
    have hcomp : ((fun v => v + c.mean.getD i 0) ∘ (fun p =>
        ((List.range k).map (fun j =>
          (c.eig_vec.getD p []).getD j 0
            * (c.eig_mix.getD i []).getD j 0)).sum))
      = (fun p => ((List.range k).map (fun j =>
          (c.eig_vec.getD p []).getD j 0
            * (c.eig_mix.getD i []).getD j 0)).sum + c.mean.getD i 0) := rfl
    rw [hcomp, sum_map_add_const, List.length_range]
    congr 1
    · have hmc : (List.range c.eig_vec.length).map (fun p =>
          ((List.range k).map (fun j =>
            (c.eig_vec.getD p []).getD j 0
              * (c.eig_mix.getD i []).getD j 0)).sum)
        = (List.range c.eig_vec.length).map
            (fun p => (V.getD p []).getD i 0) := by
        apply List.map_congr_left
        intro p hpmem
        rw [List.mem_range] at hpmem
        exact hexact p (by omega) i hi
      rw [hmc]
      rw [show c.eig_vec.length = V.length by omega]
      rw [hVr i]
    · rw [hev]
      norm_num
  refine ⟨_, hD, hDlen, fun i hi => hrowlen i hi, ?_, ?_⟩
  · intro i hi p hp
    rw [hentry i hi p hp]
    ring
  · intro i hi p hp
    have hn : (((x * y : ℕ) : ℚ)) ≠ 0 := by
      exact_mod_cast Nat.pos_iff_ne_zero.mp hpix
    have hL1 : listMean ((addMeanRows (rebuildDot c.eig_vec (List.range k)
          c.eig_mix) c.mean).getD i [])
        = listMean (V.map (fun row => row.getD i 0)) + c.mean.getD i 0 := by
      have hx0 : ((x : ℕ) : ℚ) ≠ 0 := by
        have : x ≠ 0 := by rintro rfl; simp at hpix
        exact_mod_cast this
      have hy0 : ((y : ℕ) : ℚ) ≠ 0 := by
        have : y ≠ 0 := by rintro rfl; simp at hpix
        exact_mod_cast this
      rw [listMean, hsumrow i hi, hrowlen i hi, listMean, List.length_map,
        hV]
      push_cast
      field_simp
      ring
    rw [residualEntry, hentry i hi p hp, hL1]
    have h0 : ((V.getD p []).getD i 0 + c.mean.getD i 0
          - (listMean (V.map (fun row => row.getD i 0)) + c.mean.getD i 0))
        - ((V.getD p []).getD i 0
          - listMean (V.map (fun row => row.getD i 0))) = 0 := by
      ring
    rw [h0]
    exact abs_zero

/-- C1 witness: a concrete exact decomposition (identity spatial factors)
of a 2-pixel, 2-frame movie with mean `[5, 7]`. -/
theorem c1_round_trip_witness :
    (∀ p < 1 * 2, ∀ i < 2,
      ((List.range 2).map (fun j =>
        (([[1, 0], [0, 1]] : List (List ℚ)).getD p []).getD j 0
          * (([[1, 2], [3, 4]] : List (List ℚ)).getD i []).getD j 0)).sum
        = (([[1, 3], [2, 4]] : List (List ℚ)).getD p []).getD i 0) ∧
    ∃ R, rebuild ⟨fun s _ _ _ => s, fun s _ _ => s⟩
        ⟨[[1, 0], [0, 1]], none, (2, 1, 2), [5, 7], 2, [[1, 2], [3, 4]],
          none, none, none⟩
        .sentinel none none false 1 1 false 1 false "butterworth_highpass"
        1 true = Except.ok R ∧
      R.length = 2 ∧ (∀ i < 2, (R.getD i []).length = 1 * 2) ∧
      (∀ i < 2, ∀ p < 1 * 2,
        (R.getD i []).getD p 0 - ([5, 7] : List ℚ).getD i 0
          = (([[1, 3], [2, 4]] : List (List ℚ)).getD p []).getD i 0) ∧
      (∀ i < 2, ∀ p < 1 * 2,
        residualEntry R [[1, 3], [2, 4]] i p = 0) := by
  have hexact : ∀ p < 1 * 2, ∀ i < 2,
      ((List.range 2).map (fun j =>
        (([[1, 0], [0, 1]] : List (List ℚ)).getD p []).getD j 0
          * (([[1, 2], [3, 4]] : List (List ℚ)).getD i []).getD j 0)).sum
        = (([[1, 3], [2, 4]] : List (List ℚ)).getD p []).getD i 0 := by
    intro p hp i hi
    interval_cases p <;> interval_cases i <;>
      norm_num [List.range_succ]
  exact ⟨hexact,
    c1_round_trip ⟨fun s _ _ _ => s, fun s _ _ => s⟩
      ⟨[[1, 0], [0, 1]], none, (2, 1, 2), [5, 7], 2, [[1, 2], [3, 4]],
        none, none, none⟩
      [[1, 3], [2, 4]] 1 1 1 1 "butterworth_highpass" 2 1 2 2
      rfl rfl rfl (by decide) (by decide) (by decide) (by decide)
      (by decide) (by decide) (by decide) hexact⟩

end Seas
